import Mathlib

/-!
# Verification of `SkPaintParamsKey.cpp`

A shallow embedding of the paint-params-key subsystem of
`src/src/core/SkPaintParamsKey.cpp`:

* the mutable `SkPaintParamsKeyBuilder` (buffer + stack of open block frames +
  sticky validity flag) with its operations `beginBlock`, `addBytes`,
  `endBlock`, `makeInvalid` and `lockAsKey`;
* the immutable key (a byte sequence, modelled as `List Nat` with every
  element intended `< 256`) with `operator==`;
* the two decoding walks over a key's bytes: `AddBlockToShaderInfo` /
  `toShaderInfo` (shader-info extraction) and `dump_block` / `dump`
  (diagnostic dump).

Bytes are `Nat` values; machine-width truncation (`SkTo<uint8_t>`) is written
explicitly as `% 256`.  The decoders' unbounded loops/recursion (they advance
only by header-stored sizes, which is not well-founded on arbitrary bytes)
are embedded with an explicit fuel argument: returning the fuel-exhausted
result for every fuel value models divergence of the C++ loop, and returning
a proper result for a sufficiently large fuel models termination.

`SkASSERT`/`SkDEBUGCODE` compile to nothing in release builds; they are
modelled as no-ops, and every theorem below about well-formed inputs stays
within the domain where those debug assertions hold anyway.
-/

/-- `SkPaintParamsKey::kBlockHeaderSizeInBytes`.  Modelled from the spec:
the constant lives in `SkPaintParamsKey.h` (not under `src/`); the header is
2 bytes, `[snippetID, blockSize]`. -/
def kBlockHeaderSizeInBytes : Nat := 2

/-- `SkPaintParamsKey::kBlockSizeOffsetInBytes`.  Modelled from the spec:
the size byte is the 2nd header byte, at offset 1 from the block start. -/
def kBlockSizeOffsetInBytes : Nat := 1

/-- `SkPaintParamsKey::kMaxBlockSize`.  Modelled from the spec: the 1-byte
size encoding maximum, 255. -/
def kMaxBlockSize : Nat := 255

/-- `SkBuiltInCodeSnippetID::kError`.  Modelled from the spec: the reserved
error snippet id written by the poison path.  Its numeric value lives in
`SkShaderCodeDictionary.h` (not under `src/`); it is the first built-in id,
so it is 0 and always within the dictionary's valid range `[0, maxID]`. -/
def kError : Nat := 0

/-- `SkBuiltInCodeSnippetID::kDepthStencilOnlyDraw`.  Modelled from the spec:
the designated depth/stencil-only marker id, a built-in id distinct from
`kError`; its numeric value lives outside `src/`. -/
def kDepthStencilOnlyDraw : Nat := 1

/-- One dictionary entry, the decode-relevant part of
`SkShaderInfo::SnippetEntry`: declared child count and the declared payload
field byte counts.  The payload fields in the code are all of
`DataPayloadType::kByte` (the builder and dump assert exactly that), so a
field is modelled by its byte count; display names are irrelevant to the
byte-level properties proved here. -/
structure SnippetEntry where
  numChildren : Nat
  payloadFieldCounts : List Nat
  deriving DecidableEq

/-- The external `SkShaderCodeDictionary` interface consumed by this file:
`maxCodeSnippetID()` and `getEntry(id)`.  Modelled from the spec (the
dictionary is an external collaborator, not under `src/`). -/
structure Dict where
  maxID : Nat
  getEntry : Nat → Option SnippetEntry

/-- `key.byte(offset)`: read one byte of a key.  Out-of-range reads are
undefined behavior in the C++; the model totalizes them to 0.  All theorems
about well-formed keys only ever read in range. -/
def byteAt (key : List Nat) (i : Nat) : Nat := key.getD i 0

/-- One open-block frame of the builder's stack
(`SkPaintParamsKeyBuilder::StackFrame`): the snippet id passed to
`beginBlock` and the buffer offset of the block's header.  The debug-only
payload-expectation fields (`fDataPayloadExpectations`,
`fCurDataPayloadEntry`) feed only `SkASSERT`s and are omitted. -/
structure StackFrame where
  fCodeSnippetID : Int
  fHeaderOffset : Nat
  deriving DecidableEq

/-- The builder state (`SkPaintParamsKeyBuilder`): growable byte buffer
`fData`, stack of open frames `fStack` (head = top of stack =
`fStack.back()` in the C++ vector), sticky validity flag `fIsValid`.
The lock count only guards against mutation while a produced key is alive
(a debug assertion) and carries no byte-level behavior, so it is omitted. -/
structure Builder where
  fData : List Nat
  fStack : List StackFrame
  fIsValid : Bool
  deriving DecidableEq

/-- The state checked by `checkReset`: never used or fully reset. -/
def Builder.reset0 : Builder := { fData := [], fStack := [], fIsValid := true }

/-- `SkTo<uint8_t>(codeSnippetID)`: truncate an `int` to an unsigned byte. -/
def toU8 (i : Int) : Nat := (i % 256).toNat

/-- The canonical error-block bytes `[kError, 2]` that `makeInvalid` leaves
in the buffer. -/
def errorKeyBytes : List Nat := [kError, kBlockHeaderSizeInBytes]

/-- `SkPaintParamsKeyBuilder::makeInvalid`: clear the stack, reset the
buffer, write the canonical error block, and latch `fIsValid := false`.
The C++ writes the error block by calling `beginBlock(kError)` then
`endBlock()` on the cleared buffer: `kError = 0` is within `[0, maxID]` for
every dictionary, so `beginBlock` takes its main path and appends the header
`[kError, 0]` while pushing a frame at offset 0, and `endBlock` computes
`blockSize = 2 - 0 = 2 ≤ kMaxBlockSize`, patches the size byte and pops,
leaving exactly `[kError, 2]` with an empty stack.  That composite effect is
written out directly here (which also keeps the definition independent of
`beginBlock`/`endBlock`; in the C++ the inner calls run while `fIsValid` is
still true, so they are not no-ops). -/
def Builder.makeInvalid (_d : Dict) (_b : Builder) : Builder :=
  { fData := errorKeyBytes, fStack := [], fIsValid := false }

/-- `SkPaintParamsKeyBuilder::beginBlock(codeSnippetID)`: no-op when
invalid; ids outside `[0, maxCodeSnippetID()]` poison the builder; otherwise
push a frame recording the current buffer length as the header offset and
append the placeholder header `[id, 0]` (two `addByte` calls). -/
def Builder.beginBlock (d : Dict) (codeSnippetID : Int) (b : Builder) : Builder :=
  if !b.fIsValid then b
  else if codeSnippetID < 0 ∨ (d.maxID : Int) < codeSnippetID then b.makeInvalid d
  else
    { fData := b.fData ++ [toU8 codeSnippetID, 0],
      fStack := ⟨codeSnippetID, b.fData.length⟩ :: b.fStack,
      fIsValid := b.fIsValid }

/-- `SkPaintParamsKeyBuilder::addBytes(numBytes, data)`: no-op when invalid;
poison when no block is open; otherwise append the raw bytes
(`fData.push_back_n`).  The payload-shape cross-check is `SkASSERT`-only. -/
def Builder.addBytes (d : Dict) (bs : List Nat) (b : Builder) : Builder :=
  if !b.fIsValid then b
  else
    match b.fStack with
    | [] => b.makeInvalid d
    | _ :: _ => { b with fData := b.fData ++ bs }

/-- `SkPaintParamsKeyBuilder::endBlock`: no-op when invalid; poison when the
stack is empty; otherwise compute
`blockSize = sizeInBytes() - headerOffset`, poison when it exceeds
`kMaxBlockSize`, and otherwise patch the size byte in place at
`headerOffset + kBlockSizeOffsetInBytes` and pop the frame. -/
def Builder.endBlock (d : Dict) (b : Builder) : Builder :=
  if !b.fIsValid then b
  else
    match b.fStack with
    | [] => b.makeInvalid d
    | f :: rest =>
      let blockSize := b.fData.length - f.fHeaderOffset
      if kMaxBlockSize < blockSize then b.makeInvalid d
      else
        { fData := b.fData.set (f.fHeaderOffset + kBlockSizeOffsetInBytes) blockSize,
          fStack := rest,
          fIsValid := b.fIsValid }

/-- `SkPaintParamsKeyBuilder::lockAsKey`: force invalid first when the stack
is non-empty (unbalanced), then partially reset (`fIsValid := true`,
`fStack.clear()`) and hand out the buffer bytes as the key.  The first
component is the produced key's byte view, the second the builder left
behind. -/
def Builder.lockAsKey (d : Dict) (b : Builder) : List Nat × Builder :=
  let b1 := if b.fStack.isEmpty then b else b.makeInvalid d
  (b1.fData, { b1 with fIsValid := true, fStack := [] })

/-- One building call, for talking about arbitrary call sequences. -/
inductive BuildOp where
  | beginB (codeSnippetID : Int)
  | addB (bs : List Nat)
  | endB
  deriving DecidableEq

/-- Apply one building call to a builder. -/
def applyOp (d : Dict) (op : BuildOp) (b : Builder) : Builder :=
  match op with
  | .beginB id => b.beginBlock d id
  | .addB bs => b.addBytes d bs
  | .endB => b.endBlock d

/-- Run a sequence of building calls left to right. -/
def runOps (d : Dict) (ops : List BuildOp) (b : Builder) : Builder :=
  match ops with
  | [] => b
  | op :: rest => runOps d rest (applyOp d op b)

/-- `SkPaintParamsKey::operator==` helper: `memcmp(...) == 0` over the
common length (the operator only calls it once the lengths agree). -/
def memcmpEq (xs ys : List Nat) : Bool :=
  (List.zip xs ys).all fun p => p.1 == p.2

/-- `SkPaintParamsKey::operator==`: byte-sequence equality — equal length
and `memcmp` agreement. -/
def keyEquals (k1 k2 : List Nat) : Bool :=
  (k1.length == k2.length) && memcmpEq k1 k2

/-- The shader-info sink (`SkShaderInfo`) as consumed by this file: the
sequence of recorded blocks (each identified by the snippet id whose
dictionary entry `result->add(*entry)` appended) and the
`fWritesColor` flag set by `setWritesColor`. -/
structure SkShaderInfo where
  entries : List Nat
  writesColor : Bool
  deriving DecidableEq

/-- `SkShaderInfo::add`: append one visited block's entry. -/
def SkShaderInfo.add (r : SkShaderInfo) (id : Nat) : SkShaderInfo :=
  { r with entries := r.entries ++ [id] }

/-- `SkShaderInfo::setWritesColor`. -/
def SkShaderInfo.setWritesColor (r : SkShaderInfo) : SkShaderInfo :=
  { r with writesColor := true }

/-- Result of one `AddBlockToShaderInfo` call: either the returned
`blockSize` with the updated sink, or the dereference of an absent
dictionary entry (`*entry` with `entry == nullptr`, undefined behavior in
the C++), or fuel exhaustion (the embedding's marker for a walk that never
returns). -/
inductive BlockRes where
  | ok (blockSize : Nat) (info : SkShaderInfo)
  | absent (id : Nat)
  | fuelOut
  deriving DecidableEq

/-- The child loop of `AddBlockToShaderInfo`: run `step` (one recursive
block visit) `n` times, each time advancing the child offset by the
returned child block size. -/
def addChildrenWith (step : Nat → SkShaderInfo → BlockRes) :
    Nat → Nat → SkShaderInfo → BlockRes
  | 0, childOffset, result => .ok childOffset result
  | n + 1, childOffset, result =>
    match step childOffset result with
    | .fuelOut => .fuelOut
    | .absent i => .absent i
    | .ok childBlockSize r => addChildrenWith step n (childOffset + childBlockSize) r

/-- `SkPaintParamsKey::AddBlockToShaderInfo`: read the header
(`readCodeSnippetID`, modelled from the spec as reading the two header
bytes), look up and dereference the dictionary entry, record it in the sink,
recurse into `entry->fNumChildren` children starting right after the header,
then mark writes-color unless the id is `kDepthStencilOnlyDraw`, and return
the header-stored `blockSize`. -/
def AddBlockToShaderInfo (d : Dict) (key : List Nat) (fuel : Nat)
    (headerOffset : Nat) (result : SkShaderInfo) : BlockRes :=
  match fuel with
  | 0 => .fuelOut
  | fuel + 1 =>
    let codeSnippetID := byteAt key headerOffset
    let blockSize := byteAt key (headerOffset + kBlockSizeOffsetInBytes)
    match d.getEntry codeSnippetID with
    | none => .absent codeSnippetID
    | some entry =>
      match addChildrenWith (fun o r => AddBlockToShaderInfo d key fuel o r)
          entry.numChildren (headerOffset + kBlockHeaderSizeInBytes)
          (result.add codeSnippetID) with
      | .fuelOut => .fuelOut
      | .absent i => .absent i
      | .ok _ result2 =>
        .ok blockSize
          (if codeSnippetID ≠ kDepthStencilOnlyDraw then result2.setWritesColor
           else result2)

/-- Result of the top-level `toShaderInfo` loop. -/
inductive KeyRes where
  | ok (info : SkShaderInfo)
  | absent (id : Nat)
  | fuelOut
  deriving DecidableEq

/-- The top-level loop of `SkPaintParamsKey::toShaderInfo`: process one
top-level block at a time, advancing `curHeaderOffset` by each returned
block size, until the buffer is exhausted. -/
def toShaderInfoGo (d : Dict) (key : List Nat) (fuel offset : Nat)
    (result : SkShaderInfo) : KeyRes :=
  match fuel with
  | 0 => if offset < key.length then .fuelOut else .ok result
  | fuel + 1 =>
    if offset < key.length then
      match AddBlockToShaderInfo d key (fuel + 1) offset result with
      | .fuelOut => .fuelOut
      | .absent i => .absent i
      | .ok blockSize r => toShaderInfoGo d key fuel (offset + blockSize) r
    else .ok result

/-- `SkPaintParamsKey::toShaderInfo`, accumulating into `result`. -/
def toShaderInfo (d : Dict) (key : List Nat) (fuel : Nat)
    (result : SkShaderInfo) : KeyRes :=
  toShaderInfoGo d key fuel 0 result

/-- One line of diagnostic output from `dump_block`, keeping the printed
data (indentation and literal label text dropped). -/
inductive DumpLine where
  | unknown (blockSize : Nat)
  | blockHeader (id : Nat) (blockSize : Nat)
  | childLabel (i : Nat)
  | fieldBytes (bytes : List Nat)
  deriving DecidableEq

/-- Result of one `dump_block` call: returned block size plus output, or a
dereference of the absent dictionary entry (`entry->fStaticFunctionName`
with `entry == nullptr`) carrying the output printed before the crash, or
fuel exhaustion. -/
inductive DumpRes where
  | ok (blockSize : Nat) (lines : List DumpLine)
  | nullDeref (lines : List DumpLine)
  | fuelOut
  deriving DecidableEq

/-- Result of the child loop of `dump_block`: final offset past the last
child plus output, or a propagated crash, or fuel exhaustion. -/
inductive DumpKidsRes where
  | ok (endOffset : Nat) (lines : List DumpLine)
  | nullDeref (lines : List DumpLine)
  | fuelOut
  deriving DecidableEq

/-- The child loop of `dump_block`: print `child i:` and recurse, advancing
by the returned child size, `n` times (indices counting up from `i`). -/
def dumpChildrenWith (step : Nat → DumpRes) :
    Nat → Nat → Nat → DumpKidsRes
  | 0, off, _ => .ok off []
  | n + 1, off, i =>
    match step off with
    | .fuelOut => .fuelOut
    | .nullDeref ls => .nullDeref (.childLabel i :: ls)
    | .ok sz ls =>
      match dumpChildrenWith step n (off + sz) (i + 1) with
      | .fuelOut => .fuelOut
      | .nullDeref ls2 => .nullDeref (.childLabel i :: (ls ++ ls2))
      | .ok endOff ls2 => .ok endOff (.childLabel i :: (ls ++ ls2))

/-- The payload loop of `dump_block`: for each declared field, read and
print its `fCount` bytes, advancing the cursor.  Returns the final cursor
and the printed lines; it cannot fail. -/
def readFields (key : List Nat) (fields : List Nat) (cur : Nat) :
    Nat × List DumpLine :=
  match fields with
  | [] => (cur, [])
  | c :: rest =>
    let bs := (List.range c).map fun i => byteAt key (cur + i)
    let (cur2, lines) := readFields key rest (cur + c)
    (cur2, .fieldBytes bs :: lines)

/-- `dump_block` (debug-only diagnostic): read the header, look up the
dictionary entry; when it is absent print `unknown block! (..B)` — and then,
as the C++ does, fall through to printing `entry->fStaticFunctionName`,
dereferencing the null entry (modelled as `nullDeref`).  Otherwise print the
block header line, recurse into `entry->fNumChildren` children, print the
declared payload fields, and return the header-stored `blockSize`.  The
`SkASSERT(blockSize >= 2 && ...)` is debug-assert-only and modelled as a
no-op. -/
def dump_block (d : Dict) (key : List Nat) (fuel headerOffset : Nat) : DumpRes :=
  match fuel with
  | 0 => .fuelOut
  | fuel + 1 =>
    let id := byteAt key headerOffset
    let blockSize := byteAt key (headerOffset + kBlockSizeOffsetInBytes)
    match d.getEntry id with
    | none => .nullDeref [.unknown blockSize]
    | some entry =>
      match dumpChildrenWith (fun o => dump_block d key fuel o)
          entry.numChildren (headerOffset + kBlockHeaderSizeInBytes) 0 with
      | .fuelOut => .fuelOut
      | .nullDeref ls => .nullDeref (.blockHeader id blockSize :: ls)
      | .ok cur ls =>
        .ok blockSize (.blockHeader id blockSize ::
          (ls ++ (readFields key entry.payloadFieldCounts cur).2))

/-- Result of the top-level `dump` loop. -/
inductive DumpTopRes where
  | ok (lines : List DumpLine)
  | nullDeref (lines : List DumpLine)
  | fuelOut
  deriving DecidableEq

/-- The top-level loop of `SkPaintParamsKey::dump`: dump one top-level block
at a time, advancing `curHeaderOffset` by the returned size. -/
def dumpGo (d : Dict) (key : List Nat) (fuel offset : Nat) : DumpTopRes :=
  match fuel with
  | 0 => if offset < key.length then .fuelOut else .ok []
  | fuel + 1 =>
    if offset < key.length then
      match dump_block d key (fuel + 1) offset with
      | .fuelOut => .fuelOut
      | .nullDeref ls => .nullDeref ls
      | .ok blockSize ls =>
        match dumpGo d key fuel (offset + blockSize) with
        | .fuelOut => .fuelOut
        | .nullDeref ls2 => .nullDeref (ls ++ ls2)
        | .ok ls2 => .ok (ls ++ ls2)
    else .ok []

mutual
/-- A block as the caller composes it: snippet id, child blocks, then the
payload fields (one byte list per `addBytes` call).  A well-formed
begin/add/end call sequence is exactly a pre-order serialization of a forest
of these trees. -/
inductive BlockTree : Type where
  | node (id : Nat) (children : Forest) (payload : List (List Nat)) : BlockTree

/-- A sequence of sibling blocks. -/
inductive Forest : Type where
  | nil : Forest
  | cons (t : BlockTree) (ts : Forest) : Forest
end

mutual
/-- Total encoded byte size of a block: header plus children plus payload. -/
def encSize : BlockTree → Nat
  | .node _ cs ps => kBlockHeaderSizeInBytes + encSizeF cs + (ps.map List.length).sum

/-- Total encoded byte size of a forest. -/
def encSizeF : Forest → Nat
  | .nil => 0
  | .cons t ts => encSize t + encSizeF ts
end

mutual
/-- The byte encoding of a block: `[id, blockSize]` header, then the
children back to back, then the flattened payload. -/
def encodeTree : BlockTree → List Nat
  | .node id cs ps => id :: encSize (.node id cs ps) :: (encodeForestF cs ++ ps.flatten)

/-- The byte encoding of a forest: blocks back to back. -/
def encodeForestF : Forest → List Nat
  | .nil => []
  | .cons t ts => encodeTree t ++ encodeForestF ts
end

mutual
/-- Pre-order list of snippet ids of a block tree. -/
def preorderT : BlockTree → List Nat
  | .node id cs _ => id :: preorderF cs

/-- Pre-order list of snippet ids of a forest. -/
def preorderF : Forest → List Nat
  | .nil => []
  | .cons t ts => preorderT t ++ preorderF ts
end

mutual
/-- Nesting depth of a block tree (a leaf block has height 1). -/
def heightT : BlockTree → Nat
  | .node _ cs _ => 1 + heightF cs

/-- Maximum nesting depth over a forest. -/
def heightF : Forest → Nat
  | .nil => 0
  | .cons t ts => max (heightT t) (heightF ts)
end

/-- Number of trees in a forest. -/
def forestLen : Forest → Nat
  | .nil => 0
  | .cons _ ts => forestLen ts + 1

mutual
/-- The tree matches the dictionary's declared schema and the format's
limits: the id is in the dictionary's valid range and fits a byte, the
dictionary entry exists and declares exactly this child count and payload
shape, the encoded size fits the 1-byte size field, the payload values are
bytes, and the same recursively for the children. -/
def treeOk (d : Dict) : BlockTree → Bool
  | .node id cs ps =>
    decide (id ≤ d.maxID) && decide (id < 256) &&
    (match d.getEntry id with
     | none => false
     | some e =>
       (e.numChildren == forestLen cs) &&
       (e.payloadFieldCounts == ps.map List.length)) &&
    decide (encSize (.node id cs ps) ≤ kMaxBlockSize) &&
    ps.all (fun f => f.all fun x => decide (x < 256)) &&
    forestOk d cs

/-- `treeOk` for every tree of a forest. -/
def forestOk (d : Dict) : Forest → Bool
  | .nil => true
  | .cons t ts => treeOk d t && forestOk d ts
end

mutual
/-- The building call sequence that composes a block: `beginBlock id`, the
children's calls, one `addBytes` per payload field, `endBlock`. -/
def opsForTree : BlockTree → List BuildOp
  | .node id cs ps =>
    .beginB (id : Int) :: (opsForForest cs ++ (ps.map BuildOp.addB ++ [.endB]))

/-- The building call sequence for a forest of top-level blocks. -/
def opsForForest : Forest → List BuildOp
  | .nil => []
  | .cons t ts => opsForTree t ++ opsForForest ts
end

mutual
/-- All blocks of a tree (the tree and every descendant). -/
def subtreesT : BlockTree → List BlockTree
  | .node id cs ps => .node id cs ps :: subtreesF cs

/-- All blocks of every tree of a forest. -/
def subtreesF : Forest → List BlockTree
  | .nil => []
  | .cons t ts => subtreesT t ++ subtreesF ts
end

/-- The children of a block. -/
def childrenOf : BlockTree → Forest
  | .node _ cs _ => cs

/-- The payload fields of a block. -/
def payloadOf : BlockTree → List (List Nat)
  | .node _ _ ps => ps

/-- The size byte a block's encoding stores (2nd byte of its header). -/
def storedSize (t : BlockTree) : Nat := byteAt (encodeTree t) kBlockSizeOffsetInBytes

/-- Sum of the stored size bytes over a forest of siblings. -/
def forestStoredSum : Forest → Nat
  | .nil => 0
  | .cons t ts => storedSize t + forestStoredSum ts

theorem byteAt_append (pre l : List Nat) (i : Nat) :
    byteAt (pre ++ l) (pre.length + i) = byteAt l i := by
  rw [byteAt, byteAt, List.getD_eq_getElem?_getD, List.getD_eq_getElem?_getD,
    List.getElem?_append_right (Nat.le_add_right _ _)]
  simp

theorem byteAt_zero (x : Nat) (l : List Nat) : byteAt (x :: l) 0 = x := rfl

theorem byteAt_one (x y : Nat) (l : List Nat) : byteAt (x :: y :: l) 1 = y := rfl

theorem toU8_coe (n : Nat) (h : n < 256) : toU8 (n : Int) = n := by
  unfold toU8
  omega

mutual
theorem length_encodeTree (t : BlockTree) : (encodeTree t).length = encSize t := by
  match t with
  | .node id cs ps =>
    simp [encodeTree, encSize, kBlockHeaderSizeInBytes, length_encodeForestF cs]
    omega

theorem length_encodeForestF (F : Forest) :
    (encodeForestF F).length = encSizeF F := by
  match F with
  | .nil => rfl
  | .cons t ts =>
    simp [encodeForestF, encSizeF, length_encodeTree t, length_encodeForestF ts]
end

theorem two_le_encSize (t : BlockTree) : 2 ≤ encSize t := by
  match t with
  | .node id cs ps =>
    simp only [encSize, kBlockHeaderSizeInBytes]
    omega

theorem runOps_append (d : Dict) (xs ys : List BuildOp) (b : Builder) :
    runOps d (xs ++ ys) b = runOps d ys (runOps d xs b) := by
  induction xs generalizing b with
  | nil => rfl
  | cons op xs ih => simp [runOps, ih]

theorem runOps_addB (d : Dict) (ps : List (List Nat)) (dat : List Nat)
    (f : StackFrame) (rest : List StackFrame) :
    runOps d (ps.map BuildOp.addB) ⟨dat, f :: rest, true⟩ =
      ⟨dat ++ ps.flatten, f :: rest, true⟩ := by
  induction ps generalizing dat with
  | nil => simp [runOps]
  | cons p ps ih =>
    simp [runOps, applyOp, Builder.addBytes, ih, List.append_assoc]

theorem endBlock_on_frame (d : Dict) (dat l : List Nat) (x : Nat) (idv : Int)
    (rest : List StackFrame) (hsz : 2 + l.length ≤ kMaxBlockSize) :
    Builder.endBlock d ⟨dat ++ x :: 0 :: l, ⟨idv, dat.length⟩ :: rest, true⟩ =
      ⟨dat ++ x :: (2 + l.length) :: l, rest, true⟩ := by
  have hlen : (dat ++ x :: 0 :: l).length - dat.length = 2 + l.length := by
    simp
    omega
  have hset : (dat ++ x :: 0 :: l).set (dat.length + kBlockSizeOffsetInBytes)
      (2 + l.length) = dat ++ x :: (2 + l.length) :: l := by
    rw [kBlockSizeOffsetInBytes, List.set_append_right _ _ (Nat.le_add_right _ _)]
    simp [List.set]
  simp only [Builder.endBlock, Bool.not_true, Bool.false_eq_true, if_false, hlen]
  rw [if_neg (by omega)]
  simp [hset]

mutual
theorem build_encode_tree (d : Dict) (t : BlockTree) (b : Builder)
    (hv : b.fIsValid = true) (hok : treeOk d t = true) :
    runOps d (opsForTree t) b = ⟨b.fData ++ encodeTree t, b.fStack, true⟩ := by
  match t with
  | .node id cs ps =>
    simp only [treeOk, Bool.and_eq_true, decide_eq_true_eq] at hok
    obtain ⟨⟨⟨⟨⟨hmax, hlt⟩, hm⟩, hsz⟩, hby⟩, hcs⟩ := hok
    have hrange : ¬((id : Int) < 0 ∨ (d.maxID : Int) < (id : Int)) := by
      omega
    rw [opsForTree]
    simp only [runOps, applyOp, Builder.beginBlock, hv, Bool.not_true,
      Bool.false_eq_true, if_false, if_neg hrange, toU8_coe id hlt]
    rw [runOps_append,
      build_encode_forest d cs ⟨b.fData ++ [id, 0], ⟨(id : Int), b.fData.length⟩ :: b.fStack, true⟩ rfl hcs]
    rw [runOps_append, runOps_addB]
    have hlen : ((b.fData ++ [id, 0]) ++ encodeForestF cs ++ ps.flatten) =
        b.fData ++ id :: 0 :: (encodeForestF cs ++ ps.flatten) := by
      simp
    simp only [runOps, applyOp, hlen]
    have hsz2 : 2 + (encodeForestF cs ++ ps.flatten).length ≤ kMaxBlockSize := by
      have h1 := length_encodeForestF cs
      have h2 : encSize (.node id cs ps) ≤ kMaxBlockSize := hsz
      rw [encSize, kBlockHeaderSizeInBytes] at h2
      simp only [List.length_append, List.length_flatten, h1]
      omega
    rw [endBlock_on_frame d _ _ _ _ _ hsz2]
    have henc : id :: (2 + (encodeForestF cs ++ ps.flatten).length) ::
        (encodeForestF cs ++ ps.flatten) = encodeTree (.node id cs ps) := by
      rw [encodeTree]
      have := length_encodeForestF cs
      simp only [List.length_append, List.length_flatten, this]
      simp [encSize, kBlockHeaderSizeInBytes]
      omega
    rw [henc]

theorem build_encode_forest (d : Dict) (F : Forest) (b : Builder)
    (hv : b.fIsValid = true) (hok : forestOk d F = true) :
    runOps d (opsForForest F) b = ⟨b.fData ++ encodeForestF F, b.fStack, true⟩ := by
  match F with
  | .nil =>
    cases b
    simp_all [opsForForest, runOps, encodeForestF]
  | .cons t ts =>
    simp only [forestOk, Bool.and_eq_true] at hok
    rw [opsForForest, runOps_append, build_encode_tree d t b hv hok.1,
      build_encode_forest d ts _ rfl hok.2]
    simp [encodeForestF]
end

mutual
theorem decode_encode_tree (d : Dict) (t : BlockTree) (key pre post : List Nat)
    (info : SkShaderInfo) (fuel : Nat)
    (hk : key = pre ++ (encodeTree t ++ post))
    (hok : treeOk d t = true) (hfuel : heightT t ≤ fuel) :
    AddBlockToShaderInfo d key fuel pre.length info =
      .ok (encSize t)
        ⟨info.entries ++ preorderT t,
         info.writesColor || (preorderT t).any fun i => i != kDepthStencilOnlyDraw⟩ := by
  match t with
  | .node id cs ps =>
    simp only [treeOk, Bool.and_eq_true, decide_eq_true_eq] at hok
    obtain ⟨⟨⟨⟨⟨hmax, hlt⟩, hm⟩, hsz⟩, hby⟩, hcs⟩ := hok
    match he : d.getEntry id with
    | none => rw [he] at hm; simp at hm
    | some e =>
      rw [he] at hm
      simp only [Bool.and_eq_true, beq_iff_eq] at hm
      obtain ⟨hnc, _hpf⟩ := hm
      match fuel with
      | 0 => rw [heightT] at hfuel; omega
      | fu + 1 =>
        have hb0 : byteAt key pre.length = id := by
          have h := byteAt_append pre (encodeTree (.node id cs ps) ++ post) 0
          rw [Nat.add_zero] at h
          rw [hk, h, encodeTree]
          simp [byteAt_zero]
        have hb1 : byteAt key (pre.length + 1) = encSize (.node id cs ps) := by
          have h := byteAt_append pre (encodeTree (.node id cs ps) ++ post) 1
          rw [hk, h, encodeTree]
          simp [byteAt_one]
        have hk2 : key = (pre ++ [id, encSize (.node id cs ps)]) ++
            (encodeForestF cs ++ (ps.flatten ++ post)) := by
          simp [hk, encodeTree]
        have hlen2 : (pre ++ [id, encSize (.node id cs ps)]).length =
            pre.length + kBlockHeaderSizeInBytes := by
          simp [kBlockHeaderSizeInBytes]
        have hfu : heightF cs ≤ fu := by
          rw [heightT] at hfuel; omega
        have hkids := decode_encode_forest d cs key
          (pre ++ [id, encSize (.node id cs ps)]) (ps.flatten ++ post)
          (info.add id) fu hk2 hcs hfu
        rw [hlen2] at hkids
        simp only [AddBlockToShaderInfo, kBlockSizeOffsetInBytes, hb0, hb1, he, hnc,
          hkids]
        simp only [SkShaderInfo.add, SkShaderInfo.setWritesColor, preorderT,
          List.any_cons]
        by_cases hid : id = kDepthStencilOnlyDraw
        · simp [hid]
        · simp [hid, bne_iff_ne, Ne, List.append_assoc]

theorem decode_encode_forest (d : Dict) (F : Forest) (key pre post : List Nat)
    (info : SkShaderInfo) (fuel : Nat)
    (hk : key = pre ++ (encodeForestF F ++ post))
    (hok : forestOk d F = true) (hfuel : heightF F ≤ fuel) :
    addChildrenWith (fun o r => AddBlockToShaderInfo d key fuel o r)
        (forestLen F) pre.length info =
      .ok (pre.length + encSizeF F)
        ⟨info.entries ++ preorderF F,
         info.writesColor || (preorderF F).any fun i => i != kDepthStencilOnlyDraw⟩ := by
  match F with
  | .nil => simp [forestLen, addChildrenWith, encSizeF, preorderF]
  | .cons t ts =>
    simp only [forestOk, Bool.and_eq_true] at hok
    have hk1 : key = pre ++ (encodeTree t ++ (encodeForestF ts ++ post)) := by
      simp [hk, encodeForestF]
    have hfu1 : heightT t ≤ fuel := le_trans (le_max_left _ _) hfuel
    have hstep := decode_encode_tree d t key pre (encodeForestF ts ++ post)
      info fuel hk1 hok.1 hfu1
    have hk2 : key = (pre ++ encodeTree t) ++ (encodeForestF ts ++ post) := by
      simp [hk1]
    have hfu2 : heightF ts ≤ fuel := le_trans (le_max_right _ _) hfuel
    have hrest := decode_encode_forest d ts key (pre ++ encodeTree t) post
      ⟨info.entries ++ preorderT t,
       info.writesColor || (preorderT t).any fun i => i != kDepthStencilOnlyDraw⟩
      fuel hk2 hok.2 hfu2
    rw [List.length_append, length_encodeTree] at hrest
    simp only [forestLen, addChildrenWith, hstep, hrest]
    simp [encSizeF, preorderF, List.any_append, Nat.add_assoc, Bool.or_assoc]
end

theorem toShaderInfoGo_encode (d : Dict) (F : Forest) :
    ∀ (pre : List Nat) (fuel : Nat) (info : SkShaderInfo),
    forestOk d F = true → forestLen F + heightF F ≤ fuel →
    toShaderInfoGo d (pre ++ encodeForestF F) fuel pre.length info =
      .ok ⟨info.entries ++ preorderF F,
           info.writesColor || (preorderF F).any fun i => i != kDepthStencilOnlyDraw⟩ := by
  match F with
  | .nil =>
    intro pre fuel info _ _
    cases fuel <;> simp [toShaderInfoGo, encodeForestF, preorderF]
  | .cons t ts =>
    intro pre fuel info hok hfuel
    simp only [forestOk, Bool.and_eq_true] at hok
    match fuel with
    | 0 => rw [forestLen] at hfuel; omega
    | fu + 1 =>
      have hoff : pre.length < (pre ++ encodeForestF (.cons t ts)).length := by
        have h2 := two_le_encSize t
        simp [length_encodeForestF, encodeForestF, length_encodeTree]
        omega
      have hheight : heightF (.cons t ts) ≤ fu := by
        rw [forestLen] at hfuel; omega
      have hk1 : pre ++ encodeForestF (.cons t ts) =
          pre ++ (encodeTree t ++ (encodeForestF ts ++ [])) := by
        simp [encodeForestF]
      have hstep := decode_encode_tree d t (pre ++ encodeForestF (.cons t ts))
        pre (encodeForestF ts ++ []) info (fu + 1) hk1 hok.1
        (le_trans (le_trans (le_max_left _ (heightF ts)) hheight) (Nat.le_succ fu))
      have hk2 : pre ++ encodeForestF (.cons t ts) =
          (pre ++ encodeTree t) ++ encodeForestF ts := by
        simp [encodeForestF]
      have hm2 : forestLen ts + heightF ts ≤ fu := by
        have hmr : heightF ts ≤ heightF (.cons t ts) := by
          rw [heightF]
          exact le_max_right _ _
        rw [forestLen] at hfuel
        omega
      have hrest := toShaderInfoGo_encode d ts (pre ++ encodeTree t) fu
        ⟨info.entries ++ preorderT t,
         info.writesColor || (preorderT t).any fun i => i != kDepthStencilOnlyDraw⟩
        hok.2 hm2
      rw [List.length_append, length_encodeTree, ← hk2] at hrest
      simp only [toShaderInfoGo, if_pos hoff, hstep]
      rw [hrest]
      simp [preorderF, List.any_append, Bool.or_assoc]

theorem toShaderInfoGo_stuck (d : Dict) (key : List Nat) (off : Nat)
    (e : SnippetEntry) (hoff : off < key.length)
    (hsz : byteAt key (off + 1) = 0)
    (he : d.getEntry (byteAt key off) = some e) (hnc : e.numChildren = 0) :
    ∀ (fuel : Nat) (info : SkShaderInfo),
    toShaderInfoGo d key fuel off info = .fuelOut := by
  intro fuel
  induction fuel with
  | zero => intro info; simp [toShaderInfoGo, hoff]
  | succ fu ih =>
    intro info
    have hblock : AddBlockToShaderInfo d key (fu + 1) off info =
        .ok 0 (if byteAt key off ≠ kDepthStencilOnlyDraw
               then (info.add (byteAt key off)).setWritesColor
               else info.add (byteAt key off)) := by
      simp only [AddBlockToShaderInfo, kBlockSizeOffsetInBytes, hsz, he, hnc,
        addChildrenWith]
    simp only [toShaderInfoGo, if_pos hoff, hblock, Nat.add_zero]
    exact ih _

mutual
theorem dump_encode_tree (d : Dict) (t : BlockTree) (key pre post : List Nat)
    (fuel : Nat) (hk : key = pre ++ (encodeTree t ++ post))
    (hok : treeOk d t = true) (hfuel : heightT t ≤ fuel) :
    ∃ ls, dump_block d key fuel pre.length = .ok (encSize t) ls := by
  match t with
  | .node id cs ps =>
    simp only [treeOk, Bool.and_eq_true, decide_eq_true_eq] at hok
    obtain ⟨⟨⟨⟨⟨hmax, hlt⟩, hm⟩, hsz⟩, hby⟩, hcs⟩ := hok
    match he : d.getEntry id with
    | none => rw [he] at hm; simp at hm
    | some e =>
      rw [he] at hm
      simp only [Bool.and_eq_true, beq_iff_eq] at hm
      obtain ⟨hnc, _hpf⟩ := hm
      match fuel with
      | 0 => rw [heightT] at hfuel; omega
      | fu + 1 =>
        have hb0 : byteAt key pre.length = id := by
          have h := byteAt_append pre (encodeTree (.node id cs ps) ++ post) 0
          rw [Nat.add_zero] at h
          rw [hk, h, encodeTree]
          simp [byteAt_zero]
        have hb1 : byteAt key (pre.length + 1) = encSize (.node id cs ps) := by
          have h := byteAt_append pre (encodeTree (.node id cs ps) ++ post) 1
          rw [hk, h, encodeTree]
          simp [byteAt_one]
        have hk2 : key = (pre ++ [id, encSize (.node id cs ps)]) ++
            (encodeForestF cs ++ (ps.flatten ++ post)) := by
          simp [hk, encodeTree]
        have hfu : heightF cs ≤ fu := by
          rw [heightT] at hfuel; omega
        obtain ⟨ls, hls⟩ := dump_encode_forest d cs key
          (pre ++ [id, encSize (.node id cs ps)]) (ps.flatten ++ post)
          fu hk2 hcs hfu 0
        have hlen2 : (pre ++ [id, encSize (.node id cs ps)]).length =
            pre.length + kBlockHeaderSizeInBytes := by
          simp [kBlockHeaderSizeInBytes]
        rw [hlen2] at hls
        refine ⟨.blockHeader id (encSize (.node id cs ps)) ::
          (ls ++ (readFields key e.payloadFieldCounts
            (pre.length + kBlockHeaderSizeInBytes + encSizeF cs)).2), ?_⟩
        simp only [dump_block, kBlockSizeOffsetInBytes, hb0, hb1, he, hnc, hls]

theorem dump_encode_forest (d : Dict) (F : Forest) (key pre post : List Nat)
    (fuel : Nat) (hk : key = pre ++ (encodeForestF F ++ post))
    (hok : forestOk d F = true) (hfuel : heightF F ≤ fuel) :
    ∀ i0, ∃ ls, dumpChildrenWith (fun o => dump_block d key fuel o)
        (forestLen F) pre.length i0 = .ok (pre.length + encSizeF F) ls := by
  match F with
  | .nil =>
    intro i0
    exact ⟨[], by simp [forestLen, dumpChildrenWith, encSizeF]⟩
  | .cons t ts =>
    intro i0
    simp only [forestOk, Bool.and_eq_true] at hok
    have hk1 : key = pre ++ (encodeTree t ++ (encodeForestF ts ++ post)) := by
      simp [hk, encodeForestF]
    obtain ⟨ls1, h1⟩ := dump_encode_tree d t key pre (encodeForestF ts ++ post)
      fuel hk1 hok.1 (le_trans (le_max_left _ _) hfuel)
    have hk2 : key = (pre ++ encodeTree t) ++ (encodeForestF ts ++ post) := by
      simp [hk1]
    obtain ⟨ls2, h2⟩ := dump_encode_forest d ts key (pre ++ encodeTree t) post
      fuel hk2 hok.2 (le_trans (le_max_right _ _) hfuel) (i0 + 1)
    rw [List.length_append, length_encodeTree] at h2
    refine ⟨.childLabel i0 :: (ls1 ++ ls2), ?_⟩
    simp only [forestLen, dumpChildrenWith, h1, h2]
    simp [encSizeF, Nat.add_assoc]
end

theorem dumpGo_encode (d : Dict) (F : Forest) :
    ∀ (pre : List Nat) (fuel : Nat), forestOk d F = true →
    forestLen F + heightF F ≤ fuel →
    ∃ ls, dumpGo d (pre ++ encodeForestF F) fuel pre.length = .ok ls := by
  match F with
  | .nil =>
    intro pre fuel _ _
    cases fuel <;> exact ⟨[], by simp [dumpGo, encodeForestF]⟩
  | .cons t ts =>
    intro pre fuel hok hfuel
    simp only [forestOk, Bool.and_eq_true] at hok
    match fuel with
    | 0 => rw [forestLen] at hfuel; omega
    | fu + 1 =>
      have hoff : pre.length < (pre ++ encodeForestF (.cons t ts)).length := by
        have h2 := two_le_encSize t
        simp [length_encodeForestF, encodeForestF, length_encodeTree]
        omega
      have hheight : heightF (.cons t ts) ≤ fu := by
        rw [forestLen] at hfuel; omega
      have hk1 : pre ++ encodeForestF (.cons t ts) =
          pre ++ (encodeTree t ++ (encodeForestF ts ++ [])) := by
        simp [encodeForestF]
      obtain ⟨ls1, h1⟩ := dump_encode_tree d t
        (pre ++ encodeForestF (.cons t ts)) pre (encodeForestF ts ++ [])
        (fu + 1) hk1 hok.1
        (le_trans (le_trans (le_max_left _ (heightF ts)) hheight) (Nat.le_succ fu))
      have hm2 : forestLen ts + heightF ts ≤ fu := by
        have hmr : heightF ts ≤ heightF (.cons t ts) := by
          rw [heightF]
          exact le_max_right _ _
        rw [forestLen] at hfuel
        omega
      have hk2 : pre ++ encodeForestF (.cons t ts) =
          (pre ++ encodeTree t) ++ encodeForestF ts := by
        simp [encodeForestF]
      obtain ⟨ls2, h2⟩ := dumpGo_encode d ts (pre ++ encodeTree t) fu hok.2 hm2
      rw [List.length_append, length_encodeTree, ← hk2] at h2
      refine ⟨ls1 ++ ls2, ?_⟩
      simp only [dumpGo, if_pos hoff, h1, h2]

theorem dumpGo_stuck (d : Dict) (key : List Nat) (off : Nat)
    (e : SnippetEntry) (hoff : off < key.length)
    (hsz : byteAt key (off + 1) = 0)
    (he : d.getEntry (byteAt key off) = some e) (hnc : e.numChildren = 0) :
    ∀ fuel : Nat, dumpGo d key fuel off = .fuelOut := by
  intro fuel
  induction fuel with
  | zero => simp [dumpGo, hoff]
  | succ fu ih =>
    have hblock : dump_block d key (fu + 1) off =
        .ok 0 (.blockHeader (byteAt key off) 0 ::
          ([] ++ (readFields key e.payloadFieldCounts
            (off + kBlockHeaderSizeInBytes)).2)) := by
      simp only [dump_block, kBlockSizeOffsetInBytes, hsz, he, hnc,
        dumpChildrenWith]
    simp only [dumpGo, if_pos hoff, hblock, Nat.add_zero, ih]

theorem keyEquals_iff (k1 k2 : List Nat) : keyEquals k1 k2 = true ↔ k1 = k2 := by
  induction k1 generalizing k2 with
  | nil => cases k2 <;> simp [keyEquals, memcmpEq]
  | cons x xs ih =>
    cases k2 with
    | nil => simp [keyEquals, memcmpEq]
    | cons y ys =>
      have hx := ih ys
      simp only [keyEquals, memcmpEq, List.zip_cons_cons, List.all_cons,
        List.length_cons, Bool.and_eq_true, beq_iff_eq] at hx ⊢
      constructor
      · rintro ⟨hl, hxy, hall⟩
        have hxs : xs = ys := hx.mp ⟨by omega, hall⟩
        rw [hxy, hxs]
      · intro h
        cases h
        exact ⟨rfl, rfl, (hx.mpr rfl).2⟩

theorem keyEquals_set (k : List Nat) (i v : Nat) (hi : i < k.length)
    (hv : v ≠ byteAt k i) : keyEquals k (k.set i v) = false := by
  by_contra hne
  have heq : k = k.set i v :=
    (keyEquals_iff _ _).mp (Bool.not_eq_false _ ▸ hne)
  have h1 : byteAt (k.set i v) i = v := by
    rw [byteAt, List.getD_eq_getElem?_getD, List.getElem?_set_self hi]
    rfl
  exact hv (by rw [← h1, ← heq])

/-- The builder's poison invariant: whenever the sticky flag is down, the
buffer holds exactly the canonical error block and the stack is empty
(`makeInvalid` establishes this and every operation preserves it). -/
def BuilderInv (b : Builder) : Prop :=
  b.fIsValid = false → b.fData = errorKeyBytes ∧ b.fStack = []

theorem applyOp_invalid (d : Dict) (op : BuildOp) (b : Builder)
    (hv : b.fIsValid = false) : applyOp d op b = b := by
  cases op <;>
    simp [applyOp, Builder.beginBlock, Builder.addBytes, Builder.endBlock, hv]

theorem runOps_invalid (d : Dict) (ops : List BuildOp) (b : Builder)
    (hv : b.fIsValid = false) : runOps d ops b = b := by
  induction ops with
  | nil => rfl
  | cons op rest ih => rw [runOps, applyOp_invalid d op b hv, ih]

theorem inv_applyOp (d : Dict) (op : BuildOp) (b : Builder) (h : BuilderInv b) :
    BuilderInv (applyOp d op b) := by
  cases hv : b.fIsValid with
  | false => rw [applyOp_invalid d op b hv]; exact h
  | true =>
    intro hfalse
    cases op with
    | beginB id =>
      by_cases hr : (id < 0 ∨ (d.maxID : Int) < id)
      · simp [applyOp, Builder.beginBlock, hv, hr, Builder.makeInvalid]
      · simp [applyOp, Builder.beginBlock, hv, hr] at hfalse
    | addB bs =>
      cases hs : b.fStack with
      | nil => simp [applyOp, Builder.addBytes, hv, hs, Builder.makeInvalid]
      | cons f rest => simp [applyOp, Builder.addBytes, hv, hs] at hfalse
    | endB =>
      cases hs : b.fStack with
      | nil => simp [applyOp, Builder.endBlock, hv, hs, Builder.makeInvalid]
      | cons f rest =>
        by_cases hbig : kMaxBlockSize < b.fData.length - f.fHeaderOffset
        · simp [applyOp, Builder.endBlock, hv, hs, hbig, Builder.makeInvalid]
        · simp [applyOp, Builder.endBlock, hv, hs, hbig] at hfalse

theorem inv_runOps (d : Dict) (ops : List BuildOp) (b : Builder)
    (h : BuilderInv b) : BuilderInv (runOps d ops b) := by
  induction ops generalizing b with
  | nil => exact h
  | cons op rest ih => exact ih _ (inv_applyOp d op b h)

theorem storedSize_eq (t : BlockTree) : storedSize t = encSize t := by
  match t with
  | .node id cs ps => rfl

theorem forestStoredSum_eq (F : Forest) : forestStoredSum F = encSizeF F := by
  match F with
  | .nil => rfl
  | .cons t ts => rw [forestStoredSum, encSizeF, storedSize_eq, forestStoredSum_eq ts]

/-- A concrete example dictionary for witnesses, covering the spec's
concrete-example schema: id 1 has one child and one 1-byte payload field,
id 5 has no children and one 2-byte payload field, id 0 (`kError`) has no
children and no payload; all other ids are absent. -/
def dEx : Dict :=
  { maxID := 10,
    getEntry := fun id =>
      if id == 0 then some ⟨0, []⟩
      else if id == 1 then some ⟨1, [1]⟩
      else if id == 5 then some ⟨0, [2]⟩
      else none }

/-- The spec's concrete example composition: block id 1 containing block
id 5 (payload bytes `[1, 2]`) as its sole child, followed by trailing
payload byte 9. -/
def exF : Forest :=
  .cons (.node 1 (.cons (.node 5 .nil [[1, 2]]) .nil) [[9]]) .nil

/-- C1: for every well-formed begin/add/end call sequence matching the
dictionary's declared schema (a schema-conforming forest of blocks), the
finalized key's bytes are exactly the declarative block encoding; decoding
them with `toShaderInfo` visits the blocks in exactly the nesting and
pre-order in which they were built; and every block's stored size byte
equals 2 plus the sum of its immediate children's recorded sizes plus the
sum of its payload field byte counts. -/
theorem c1_round_trip (d : Dict) (F : Forest) (hok : forestOk d F = true) :
    (Builder.lockAsKey d (runOps d (opsForForest F) Builder.reset0)).1 =
        encodeForestF F ∧
    toShaderInfo d (encodeForestF F) (forestLen F + heightF F) ⟨[], false⟩ =
        .ok ⟨preorderF F, (preorderF F).any fun i => i != kDepthStencilOnlyDraw⟩ ∧
    ∀ t ∈ subtreesF F, storedSize t =
        kBlockHeaderSizeInBytes + forestStoredSum (childrenOf t) +
          ((payloadOf t).map List.length).sum := by
  refine ⟨?_, ?_, ?_⟩
  · rw [build_encode_forest d F Builder.reset0 rfl hok]
    simp [Builder.lockAsKey, Builder.reset0]
  · have h := toShaderInfoGo_encode d F [] (forestLen F + heightF F)
      ⟨[], false⟩ hok le_rfl
    simpa [toShaderInfo] using h
  · intro t _ht
    cases t with
    | node id cs ps =>
      rw [storedSize_eq, encSize, forestStoredSum_eq]
      simp [childrenOf, payloadOf]

/-- Witness for C1 at the spec's concrete example forest. -/
theorem c1_round_trip_witness :
    forestOk dEx exF = true ∧
    ((Builder.lockAsKey dEx (runOps dEx (opsForForest exF) Builder.reset0)).1 =
        encodeForestF exF ∧
      toShaderInfo dEx (encodeForestF exF) (forestLen exF + heightF exF)
          ⟨[], false⟩ =
        .ok ⟨preorderF exF, (preorderF exF).any fun i => i != kDepthStencilOnlyDraw⟩ ∧
      ∀ t ∈ subtreesF exF, storedSize t =
        kBlockHeaderSizeInBytes + forestStoredSum (childrenOf t) +
          ((payloadOf t).map List.length).sum) :=
  ⟨rfl, c1_round_trip dEx exF rfl⟩

/-- C2: once the validity flag is false (on any builder reachable by
building calls from the reset state), every further sequence of building
calls leaves the builder — in particular its buffer — unchanged, and the
key handed out by `lockAsKey` is the canonical 2-byte error key
`[kError, 2]`. -/
theorem c2_poison (d : Dict) (b : Builder)
    (hreach : ∃ ops0, runOps d ops0 Builder.reset0 = b)
    (hinv : b.fIsValid = false) :
    (∀ ops, runOps d ops b = b) ∧ (Builder.lockAsKey d b).1 = errorKeyBytes := by
  obtain ⟨ops0, h0⟩ := hreach
  have hInv : BuilderInv b := by
    rw [← h0]
    exact inv_runOps d ops0 Builder.reset0
      (fun hfalse => by simp [Builder.reset0] at hfalse)
  obtain ⟨hdata, hstack⟩ := hInv hinv
  refine ⟨fun ops => runOps_invalid d ops b hinv, ?_⟩
  simp [Builder.lockAsKey, hstack, hdata]

/-- A poisoned builder for witnesses: `endBlock` on the reset state. -/
def bInvEx : Builder := runOps dEx [BuildOp.endB] Builder.reset0

/-- Witness for C2: after poisoning, a begin/add/end sequence is a no-op and
`lockAsKey` yields the canonical error key. -/
theorem c2_poison_witness :
    bInvEx.fIsValid = false ∧
    (runOps dEx [BuildOp.beginB 5, BuildOp.addB [1, 2], BuildOp.endB] bInvEx =
        bInvEx ∧
      (Builder.lockAsKey dEx bInvEx).1 = errorKeyBytes) :=
  ⟨rfl,
   ⟨(c2_poison dEx bInvEx ⟨[BuildOp.endB], rfl⟩ rfl).1 _,
    (c2_poison dEx bInvEx ⟨[BuildOp.endB], rfl⟩ rfl).2⟩⟩

/-- C3: `endBlock` on an open frame computes the block size as the current
buffer length minus the frame's header offset; within `kMaxBlockSize` (255)
it patches the size byte in place at `headerOffset + 1` and pops the frame,
and one byte past 255 it poisons the builder, leaving only the canonical
error marker in the buffer. -/
theorem c3_endBlock_boundary (d : Dict) (b : Builder) (f : StackFrame)
    (rest : List StackFrame) (hv : b.fIsValid = true)
    (hs : b.fStack = f :: rest) :
    Builder.endBlock d b =
      if b.fData.length - f.fHeaderOffset ≤ kMaxBlockSize then
        ⟨b.fData.set (f.fHeaderOffset + kBlockSizeOffsetInBytes)
            (b.fData.length - f.fHeaderOffset), rest, true⟩
      else ⟨errorKeyBytes, [], false⟩ := by
  by_cases hbig : kMaxBlockSize < b.fData.length - f.fHeaderOffset
  · rw [if_neg (by omega)]
    simp [Builder.endBlock, hv, hs, hbig, Builder.makeInvalid]
  · rw [if_pos (by omega)]
    simp [Builder.endBlock, hv, hs, hbig]

set_option maxRecDepth 8192 in
/-- Witness for C3 at the boundary: a 255-byte block closes successfully
(size byte patched, frame popped); a 256-byte block poisons the builder. -/
theorem c3_endBlock_boundary_witness :
    (Builder.endBlock dEx ⟨5 :: 0 :: List.replicate 253 7, [⟨5, 0⟩], true⟩ =
        ⟨5 :: 255 :: List.replicate 253 7, [], true⟩) ∧
    (Builder.endBlock dEx ⟨5 :: 0 :: List.replicate 254 7, [⟨5, 0⟩], true⟩ =
        ⟨errorKeyBytes, [], false⟩) :=
  ⟨(c3_endBlock_boundary dEx _ ⟨5, 0⟩ [] rfl rfl).trans (by decide),
   (c3_endBlock_boundary dEx _ ⟨5, 0⟩ [] rfl rfl).trans (by decide)⟩

/-- C4: after the shader-info walk over a well-formed key, the result is
marked writes-color if and only if some visited block's snippet id differs
from the depth/stencil-only marker id. -/
theorem c4_writes_color (d : Dict) (F : Forest) (fuel : Nat)
    (hok : forestOk d F = true) (hfuel : forestLen F + heightF F ≤ fuel) :
    ∃ info, toShaderInfo d (encodeForestF F) fuel ⟨[], false⟩ = .ok info ∧
      (info.writesColor = true ↔ ∃ id ∈ preorderF F, id ≠ kDepthStencilOnlyDraw) := by
  refine ⟨⟨preorderF F, (preorderF F).any fun i => i != kDepthStencilOnlyDraw⟩, ?_, ?_⟩
  · have h := toShaderInfoGo_encode d F [] fuel ⟨[], false⟩ hok hfuel
    simpa [toShaderInfo] using h
  · simp [List.any_eq_true, bne_iff_ne]

/-- Witness for C4 at the example forest (id 5 differs from the marker, so
the key writes color). -/
theorem c4_writes_color_witness :
    (forestOk dEx exF = true ∧ forestLen exF + heightF exF ≤ 5) ∧
    ∃ info, toShaderInfo dEx (encodeForestF exF) 5 ⟨[], false⟩ = .ok info ∧
      (info.writesColor = true ↔ ∃ id ∈ preorderF exF, id ≠ kDepthStencilOnlyDraw) :=
  ⟨⟨rfl, by decide⟩, c4_writes_color dEx exF 5 rfl (by decide)⟩

/-- C5 (code bug): when a block's snippet id has no dictionary entry,
`dump_block` prints `unknown block!` but then falls through — the C++ is
missing a `return` — and dereferences the null entry pointer
(`entry->fStaticFunctionName`), so the visit does not complete safely: at
key `[9, 2]` with a dictionary lacking id 9 the walk crashes right after
the `unknown block!` line. -/
theorem c5_dump_unknown_crash :
    dump_block dEx [9, 2] 3 0 = .nullDeref [.unknown 2] := rfl

/-- C6: key equality is exact byte-sequence equality regardless of origin —
`operator==` returns true iff the byte sequences are identical; keys built
from identical operation sequences are equal; and changing any single
in-range byte to a different value makes the keys unequal. -/
theorem c6_key_equality :
    (∀ k1 k2 : List Nat, keyEquals k1 k2 = true ↔ k1 = k2) ∧
    (∀ (d : Dict) (ops : List BuildOp),
      keyEquals (Builder.lockAsKey d (runOps d ops Builder.reset0)).1
        (Builder.lockAsKey d (runOps d ops Builder.reset0)).1 = true) ∧
    (∀ (k : List Nat) (i v : Nat), i < k.length → v ≠ byteAt k i →
      keyEquals k (k.set i v) = false) :=
  ⟨keyEquals_iff, fun _ _ => (keyEquals_iff _ _).mpr rfl, keyEquals_set⟩

/-- Witness for C6 on concrete keys. -/
theorem c6_key_equality_witness :
    (keyEquals [5, 4, 1, 2] [5, 4, 1, 2] = true ↔
      ([5, 4, 1, 2] : List Nat) = [5, 4, 1, 2]) ∧
    ((1 < ([5, 4, 1, 2] : List Nat).length ∧ (9 : Nat) ≠ byteAt [5, 4, 1, 2] 1) ∧
      keyEquals [5, 4, 1, 2] (([5, 4, 1, 2] : List Nat).set 1 9) = false) :=
  ⟨c6_key_equality.1 [5, 4, 1, 2] [5, 4, 1, 2],
   ⟨⟨by decide, by decide⟩,
    c6_key_equality.2.2 [5, 4, 1, 2] 1 9 (by decide) (by decide)⟩⟩

/-- C7: the spec's concrete example — building block id 5 with payload
bytes `[1, 2]` yields `[5, 4, 1, 2]`; building block id 1 with that block
as its sole child followed by trailing payload byte 9 yields
`[1, 7, 5, 4, 1, 2, 9]`; decoding the latter records entry 1 into the sink
first, then entry 5. -/
theorem c7_concrete_example :
    (runOps dEx [.beginB 5, .addB [1, 2], .endB] Builder.reset0).fData =
        [5, 4, 1, 2] ∧
    (runOps dEx [.beginB 1, .beginB 5, .addB [1, 2], .endB, .addB [9], .endB]
        Builder.reset0).fData = [1, 7, 5, 4, 1, 2, 9] ∧
    toShaderInfo dEx [1, 7, 5, 4, 1, 2, 9] 9 ⟨[], false⟩ = .ok ⟨[1, 5], true⟩ :=
  ⟨rfl, rfl, rfl⟩

/-- C8: `endBlock` with an empty frame stack poisons the builder; and
`lockAsKey` with a non-empty frame stack forces invalid first — never
silently auto-closing the open block — hands out the canonical error key,
and leaves the builder with the validity flag true and an empty stack. -/
theorem c8_unbalanced (d : Dict) (b : Builder) :
    (b.fIsValid = true → b.fStack = [] →
      Builder.endBlock d b = ⟨errorKeyBytes, [], false⟩) ∧
    (b.fStack ≠ [] →
      Builder.lockAsKey d b = (errorKeyBytes, ⟨errorKeyBytes, [], true⟩)) := by
  constructor
  · intro hv hs
    simp [Builder.endBlock, hv, hs, Builder.makeInvalid]
  · intro hs
    have hie : b.fStack.isEmpty = false := by simp [List.isEmpty_iff, hs]
    simp [Builder.lockAsKey, hie, Builder.makeInvalid]

/-- Witness for C8: `endBlock` on the reset builder, and `lockAsKey` on a
builder with one still-open block. -/
theorem c8_unbalanced_witness :
    (Builder.reset0.fIsValid = true ∧ Builder.reset0.fStack = [] ∧
      Builder.endBlock dEx Builder.reset0 = ⟨errorKeyBytes, [], false⟩) ∧
    ((runOps dEx [BuildOp.beginB 5] Builder.reset0).fStack ≠ [] ∧
      Builder.lockAsKey dEx (runOps dEx [BuildOp.beginB 5] Builder.reset0) =
        (errorKeyBytes, ⟨errorKeyBytes, [], true⟩)) :=
  ⟨⟨rfl, rfl, (c8_unbalanced dEx Builder.reset0).1 rfl rfl⟩,
   ⟨by decide, (c8_unbalanced dEx _).2 (by decide)⟩⟩

/-- C9: both decode walks advance through siblings solely by the stored
size byte: over the byte encoding of a schema-conforming forest (whose
stored sizes are all ≥ 2 and partition the buffer) both walks terminate
given enough fuel, whereas at a block whose stored size byte is 0 (with a
childless dictionary entry for its id) the top-level loop never advances
and exhausts every fuel amount — divergence of the C++ loop. -/
theorem c9_termination :
    (∀ (d : Dict) (F : Forest) (fuel : Nat) (info : SkShaderInfo),
      forestOk d F = true → forestLen F + heightF F ≤ fuel →
      toShaderInfo d (encodeForestF F) fuel info =
        .ok ⟨info.entries ++ preorderF F,
             info.writesColor ||
               (preorderF F).any fun i => i != kDepthStencilOnlyDraw⟩) ∧
    (∀ (d : Dict) (F : Forest) (fuel : Nat),
      forestOk d F = true → forestLen F + heightF F ≤ fuel →
      ∃ ls, dumpGo d (encodeForestF F) fuel 0 = .ok ls) ∧
    (∀ (d : Dict) (key : List Nat) (off : Nat) (e : SnippetEntry)
        (info : SkShaderInfo) (fuel : Nat),
      off < key.length → byteAt key (off + 1) = 0 →
      d.getEntry (byteAt key off) = some e → e.numChildren = 0 →
      toShaderInfoGo d key fuel off info = .fuelOut ∧
        dumpGo d key fuel off = .fuelOut) := by
  refine ⟨?_, ?_, ?_⟩
  · intro d F fuel info hok hfuel
    have h := toShaderInfoGo_encode d F [] fuel info hok hfuel
    simpa [toShaderInfo] using h
  · intro d F fuel hok hfuel
    have h := dumpGo_encode d F [] fuel hok hfuel
    simpa using h
  · intro d key off e info fuel hoff hsz he hnc
    exact ⟨toShaderInfoGo_stuck d key off e hoff hsz he hnc fuel info,
           dumpGo_stuck d key off e hoff hsz he hnc fuel⟩

/-- Witness for C9: the example forest decodes and dumps with fuel 5, while
the key `[0, 0]` (stored size byte 0) exhausts any fuel, here 7. -/
theorem c9_termination_witness :
    ((forestOk dEx exF = true ∧ forestLen exF + heightF exF ≤ 5) ∧
      toShaderInfo dEx (encodeForestF exF) 5 ⟨[], false⟩ =
        .ok ⟨[] ++ preorderF exF,
             false || (preorderF exF).any fun i => i != kDepthStencilOnlyDraw⟩) ∧
    (∃ ls, dumpGo dEx (encodeForestF exF) 5 0 = .ok ls) ∧
    ((0 < ([0, 0] : List Nat).length ∧ byteAt [0, 0] (0 + 1) = 0 ∧
        dEx.getEntry (byteAt [0, 0] 0) = some ⟨0, []⟩) ∧
      toShaderInfoGo dEx [0, 0] 7 0 ⟨[], false⟩ = .fuelOut ∧
        dumpGo dEx [0, 0] 7 0 = .fuelOut) :=
  ⟨⟨⟨rfl, by decide⟩, c9_termination.1 dEx exF 5 ⟨[], false⟩ rfl (by decide)⟩,
   c9_termination.2.1 dEx exF 5 rfl (by decide),
   ⟨⟨by decide, rfl, rfl⟩,
    c9_termination.2.2 dEx [0, 0] 0 ⟨0, []⟩ ⟨[], false⟩ 7 (by decide) rfl rfl rfl⟩⟩

/-- C10: `AddBlockToShaderInfo` dereferences the looked-up dictionary entry
unconditionally — with no absence check, an absent entry is a crash of the
walk — and under the precondition that the key is a schema-conforming
encoding (so in particular every snippet id appearing in it has a
dictionary entry) the absent-entry outcome is unreachable. -/
theorem c10_entry_precondition :
    (∀ (d : Dict) (key : List Nat) (fuel off : Nat) (info : SkShaderInfo),
      1 ≤ fuel → d.getEntry (byteAt key off) = none →
      AddBlockToShaderInfo d key fuel off info = .absent (byteAt key off)) ∧
    (∀ (d : Dict) (F : Forest) (fuel : Nat) (info : SkShaderInfo),
      forestOk d F = true → forestLen F + heightF F ≤ fuel →
      ∀ i, toShaderInfo d (encodeForestF F) fuel info ≠ .absent i) := by
  constructor
  · intro d key fuel off info hf he
    obtain ⟨fu, rfl⟩ : ∃ fu, fuel = fu + 1 := ⟨fuel - 1, by omega⟩
    simp only [AddBlockToShaderInfo, he]
  · intro d F fuel info hok hfuel i
    have h := toShaderInfoGo_encode d F [] fuel info hok hfuel
    simp only [List.nil_append, List.length_nil] at h
    rw [toShaderInfo, h]
    simp

/-- Witness for C10: an absent entry (id 9) crashes the walk; the example
forest's walk never reaches the absent branch. -/
theorem c10_entry_precondition_witness :
    ((1 ≤ 3 ∧ dEx.getEntry (byteAt [9, 2] 0) = none) ∧
      AddBlockToShaderInfo dEx [9, 2] 3 0 ⟨[], false⟩ =
        .absent (byteAt [9, 2] 0)) ∧
    ((forestOk dEx exF = true ∧ forestLen exF + heightF exF ≤ 5) ∧
      ∀ i, toShaderInfo dEx (encodeForestF exF) 5 ⟨[], false⟩ ≠ .absent i) :=
  ⟨⟨⟨by decide, rfl⟩,
    c10_entry_precondition.1 dEx [9, 2] 3 0 ⟨[], false⟩ (by decide) rfl⟩,
   ⟨⟨rfl, by decide⟩,
    c10_entry_precondition.2 dEx exF 5 ⟨[], false⟩ rfl (by decide)⟩⟩
